import Mathlib

/-!
Shallow embedding of the two components of the protein_set_transformer
repository that the verified claims concern:

* `src/pst/data/graph.py` — the `GenomeGraph` static edge-index builders
  (`create_fully_connected_graph`, `filter_edges_by_seq_distance`,
  `create_sparse_graph`, `create_chunked_graph`, `_edge_index_create_method`,
  `create_edge_index`).
* `src/pst/cross_validation/cv.py` — the `ImbalancedGroupKFold` splitter
  (`__init__`, `_sort_groups`, `__len__`, `split`).

Conventions of the embedding:

* A torch edge-index tensor of shape (2, E) is represented as a
  `List (Int × Int)` of its E (source, target) columns.  An *empty* tensor
  built from `torch.tensor([])` is 1-dimensional, so row indexing
  `edge_index[0]` fails on it; this is modelled by making
  `filter_edges_by_seq_distance` return `Except.error` on an empty edge list
  (the only way an empty edge list reaches it in the code paths).
* Python exceptions (`ValueError`, `IndexError`) are modelled with
  `Except String`; error payloads are abbreviated message strings.
* numpy int64 arrays are `List Int` (raw group labels) or `List Nat`
  (indices and counts); machine-width overflow is irrelevant at the sizes
  involved, so no modular arithmetic is modelled.
-/

/-- One case per literal of `pst.typing.EdgeIndexStrategy`
(`"chunked" | "sparse" | "full"`). -/
inductive EdgeIndexStrategy where
  | chunked
  | sparse
  | full
deriving DecidableEq, Repr

/-- `GenomeGraph.create_fully_connected_graph`: the columns of
`torch.tensor(list(permutations(range(num_nodes), r=2))).t()`, i.e. all
ordered pairs (i, j) with i ≠ j, in the lexicographic order produced by
`itertools.permutations`. -/
def create_fully_connected_graph (num_nodes : Nat) : List (Int × Int) :=
  (List.range num_nodes).flatMap fun i =>
    (List.range num_nodes).filterMap fun j =>
      if i = j then none else some ((i : Int), (j : Int))

/-- `GenomeGraph.filter_edges_by_seq_distance`: keep edges with
`|u - v| ≤ threshold`.  On the 1-dimensional empty tensor produced by
`create_fully_connected_graph` for fewer than 2 nodes, the row access
`edge_index[0]` raises `IndexError`; hence the error case on `[]`. -/
def filter_edges_by_seq_distance (edge_index : List (Int × Int)) (threshold : Int) :
    Except String (List (Int × Int)) :=
  if edge_index.isEmpty then
    Except.error "index 0 is out of bounds for dimension 0 with size 0"
  else
    Except.ok (edge_index.filter fun e => decide (((e.1 - e.2).natAbs : Int) ≤ threshold))

/-- `GenomeGraph.create_sparse_graph`: complete graph filtered by sequence
distance. -/
def create_sparse_graph (num_nodes : Nat) (threshold : Int) :
    Except String (List (Int × Int)) :=
  filter_edges_by_seq_distance (create_fully_connected_graph num_nodes) threshold

/-- Fuel-driven splitting of a list into consecutive chunks of size
`chunk_size` (last chunk possibly shorter).  Each step consumes at least one
element, so with `fuel ≥ l.length` the fuel never runs out; the fuel-exhausted
branch returns the rest as one chunk, which keeps `flatten` exact. -/
def chunksFuel (chunk_size : Nat) : Nat → List α → List (List α)
  | _, [] => []
  | 0, a :: l => [a :: l]
  | fuel + 1, a :: l =>
    (a :: l.take (chunk_size - 1)) :: chunksFuel chunk_size fuel (l.drop (chunk_size - 1))

/-- `more_itertools.chunked` used by `create_chunked_graph`, with a zero guard
(the claims only use a positive chunk size). -/
def more_itertools_chunked (chunk_size : Nat) (l : List α) : List (List α) :=
  if chunk_size = 0 then [] else chunksFuel chunk_size l.length l

/-- Lines 102–106 of `graph.py`: if the last chunk has exactly one member,
extend the second-to-last chunk with it and delete it.  The accesses
`connected_comp[-1]` and `connected_comp[-2]` raise `IndexError` when those
positions do not exist. -/
def merge_singleton_chunk (connected_comp : List (List Nat)) :
    Except String (List (List Nat)) :=
  match connected_comp.getLast? with
  | none => Except.error "list index out of range"
  | some last =>
    if last.length = 1 then
      match connected_comp.dropLast.getLast? with
      | none => Except.error "list index out of range"
      | some prev => Except.ok (connected_comp.dropLast.dropLast ++ [prev ++ last])
    else Except.ok connected_comp

/-- The chunk partition `create_chunked_graph` actually uses to build edges:
`chunked(range(num_nodes), n=chunk_size)` followed by the trailing-singleton
merge. -/
def chunk_partition (num_nodes chunk_size : Nat) : Except String (List (List Nat)) :=
  merge_singleton_chunk (more_itertools_chunked chunk_size (List.range num_nodes))

/-- The edge-building loop of `create_chunked_graph` (lines 112–121): for each
connected component, build its complete subgraph, add the running offset,
optionally filter by sequence distance, and concatenate everything
(`torch.cat` skips legacy empty 1-D tensors, so concatenation is plain list
append). -/
def chunk_edges (threshold : Int) (filter_edges : Bool) :
    List (List Nat) → Int → Except String (List (Int × Int))
  | [], _ => Except.ok []
  | cc :: rest, offset => do
    let edges := (create_fully_connected_graph cc.length).map
      fun e => (e.1 + offset, e.2 + offset)
    let edges ← if filter_edges then filter_edges_by_seq_distance edges threshold
      else Except.ok edges
    let more ← chunk_edges threshold filter_edges rest (offset + (cc.length : Int))
    Except.ok (edges ++ more)

/-- `GenomeGraph.create_chunked_graph`. -/
def create_chunked_graph (num_nodes chunk_size : Nat) (threshold : Int) :
    Except String (List (Int × Int)) := do
  let connected_comp ← chunk_partition num_nodes chunk_size
  let filter_edges := decide (¬(threshold = -1 ∨ (chunk_size : Int) ≤ threshold))
  chunk_edges threshold filter_edges connected_comp 0

/-- The `ValueError` message raised by `_edge_index_create_method` for the
sparse strategy with `threshold ≤ 1` (abbreviated). -/
def sparse_threshold_errmsg : String :=
  "Passed edge_strategy=sparse, which requires the threshold arg for create_sparse_graph to be >1"

/-- `GenomeGraph.create_edge_index` composed with
`GenomeGraph._edge_index_create_method`: validate the sparse threshold, then
dispatch to the strategy builder. -/
def create_edge_index (num_nodes : Nat) (edge_strategy : EdgeIndexStrategy)
    (chunk_size : Nat) (threshold : Int) : Except String (List (Int × Int)) :=
  match edge_strategy with
  | EdgeIndexStrategy.sparse =>
    if threshold ≤ 1 then Except.error sparse_threshold_errmsg
    else create_sparse_graph num_nodes threshold
  | EdgeIndexStrategy.chunked => create_chunked_graph num_nodes chunk_size threshold
  | EdgeIndexStrategy.full => Except.ok (create_fully_connected_graph num_nodes)

/-!
### The ImbalancedGroupKFold splitter (`src/pst/cross_validation/cv.py`)

`np.unique(groups, return_inverse=True)` is modelled by an insertion sort
with deduplication (`sorted_unique`) plus the positional index of each value
in the sorted distinct list.  `np.argsort` (ascending) is modelled as an
insertion sort on indices.  numpy only guarantees that the result sorts the
keys; the order of equal keys is unspecified for the default quicksort
(stability holds only below its small-array insertion-sort cutoff), so the
model's concrete tie order is the program's behavior only on such small
arrays, and every universal theorem below uses sort-correctness consequences
that hold for any correct argsort, never the model's tie order.
-/

/-- Insert a value into a strictly sorted list, dropping it when already
present. -/
def insert_uniq (v : Int) : List Int → List Int
  | [] => [v]
  | w :: rest =>
    if v < w then v :: w :: rest
    else if v = w then w :: rest
    else w :: insert_uniq v rest

/-- The sorted distinct values of a list: the first component of
`np.unique`. -/
def sorted_unique : List Int → List Int
  | [] => []
  | v :: rest => insert_uniq v (sorted_unique rest)

/-- `np.unique(groups, return_inverse=True)`: the sorted distinct values,
and for each input element its index in that sorted list. -/
def np_unique (l : List Int) : List Int × List Nat :=
  let u := sorted_unique l
  (u, l.map fun v => u.indexOf v)

/-- `np.bincount` on a list of nonnegative indices: occurrence counts for
each value from 0 to the maximum (empty for empty input). -/
def np_bincount (l : List Nat) : List Nat :=
  if l.isEmpty then []
  else (List.range (l.foldr max 0 + 1)).map fun i => l.count i

/-- Stable insertion of an index into an index list ordered by ascending
key: `i` is placed before the first `j` whose key is ≥ its own. -/
def arg_insert (key : List Nat) (i : Nat) : List Nat → List Nat
  | [] => [i]
  | j :: rest =>
    if key.getD i 0 ≤ key.getD j 0 then i :: j :: rest
    else j :: arg_insert key i rest

/-- Stable insertion argsort of an index list by ascending key. -/
def arg_sort_list (key : List Nat) : List Nat → List Nat
  | [] => []
  | i :: is => arg_insert key i (arg_sort_list key is)

/-- `np.argsort(key)` (ascending): a permutation of `[0, ..., len-1]`
sorting `key`.  Executably realized by the insertion sort above; the tie
order of this realization matches numpy only on small arrays (below the
quicksort insertion-sort cutoff), numpy leaves it unspecified otherwise. -/
def np_argsort (key : List Nat) : List Nat :=
  arg_sort_list key (List.range key.length)

/-- `np.argmax`: index of the first occurrence of the maximum. -/
def np_argmax (l : List Nat) : Nat :=
  l.indexOf (l.foldr max 0)

/-- numpy boolean-mask selection `xs[mask]`: the elements of `xs` whose
aligned mask entry is `True`. -/
def mask_select (xs : List α) (mask : List Bool) : List α :=
  (xs.zip mask).filterMap fun p => if p.2 then some p.1 else none

/-- One fold as produced by `ImbalancedGroupKFold.split`, together with the
bookkeeping fields the generator writes while producing it. -/
structure Fold where
  train_idx : List Nat
  val_idx : List Nat
  val_group_id : Int
  train_group_ids : List Int
deriving DecidableEq, Repr

/-- The state of an `ImbalancedGroupKFold` instance after `__init__`
(which already runs `_sort_groups`):

* `X_idx = arange(n)`;
* `uniq_groups`, `group_counts`: the distinct raw labels and their counts,
  reordered by `group_counts.argsort()[::-1]` (descending count);
* `groups`: the `return_inverse` indices into the *pre-sort* ascending
  distinct list (the code never re-maps them after `_sort_groups`);
* `n_folds = len(uniq_groups) - 1`; `largest_group_id = argmax(group_counts)`
  evaluated after the sort. -/
structure ImbalancedGroupKFold where
  val_group_id : Int
  train_group_ids : List Int
  X_idx : List Nat
  uniq_groups : List Int
  groups : List Nat
  group_counts : List Nat
  n_folds : Int
  largest_group_id : Nat
deriving Repr

/-- `ImbalancedGroupKFold.__init__` (with `_sort_groups` inlined, as the
constructor calls it).  `np.argmax` rejects an empty array, so the model is
meaningful for nonempty `groups`; all theorems assume that. -/
def ImbalancedGroupKFold.init (groups : List Int) : ImbalancedGroupKFold :=
  let X_idx := List.range groups.length
  let p := np_unique groups
  let group_counts := np_bincount p.2
  let sort_idx := (np_argsort group_counts).reverse
  let uniq_groups := sort_idx.map fun i => p.1.getD i 0
  let counts_sorted := sort_idx.map fun i => group_counts.getD i 0
  { val_group_id := -1
    train_group_ids := []
    X_idx := X_idx
    uniq_groups := uniq_groups
    groups := p.2
    group_counts := counts_sorted
    n_folds := (uniq_groups.length : Int) - 1
    largest_group_id := np_argmax counts_sorted }

/-- `__len__`, called `fold_count` in the specification. -/
def ImbalancedGroupKFold.fold_count (s : ImbalancedGroupKFold) : Int :=
  s.n_folds

/-- The fold produced for validation group `group_id`. -/
def ImbalancedGroupKFold.mk_fold (s : ImbalancedGroupKFold) (group_id : Int) : Fold :=
  let val_mask := s.groups.map fun g : Nat => ((g : Int) == group_id)
  let train_mask := val_mask.map fun b => !b
  { train_idx := mask_select s.X_idx train_mask
    val_idx := mask_select s.X_idx val_mask
    val_group_id := group_id
    train_group_ids := s.uniq_groups.filter fun g => g ≠ group_id }

/-- The sequence of folds yielded by one full run of the `split` generator:
enumerate `uniq_groups`, skip index 0 (the most frequent group), and yield a
fold for every other group. -/
def ImbalancedGroupKFold.split_folds (s : ImbalancedGroupKFold) : List Fold :=
  s.uniq_groups.enum.filterMap fun p =>
    if p.1 = 0 then none else some (s.mk_fold p.2)

/-- Fully consuming one call of the `split` generator: returns the yielded
folds together with the instance state afterwards (the generator overwrites
`val_group_id` / `train_group_ids` on every yield, so the last fold's values
stick). -/
def ImbalancedGroupKFold.split (s : ImbalancedGroupKFold) :
    ImbalancedGroupKFold × List Fold :=
  let folds := s.split_folds
  match folds.getLast? with
  | none => (s, folds)
  | some f =>
    ({ s with val_group_id := f.val_group_id, train_group_ids := f.train_group_ids },
      folds)

/-! ### Lemmas about the edge builders -/

theorem mem_create_fully_connected_graph {n : Nat} {u v : Int} :
    (u, v) ∈ create_fully_connected_graph n ↔
      u ≠ v ∧ 0 ≤ u ∧ u < n ∧ 0 ≤ v ∧ v < n := by
  unfold create_fully_connected_graph
  simp only [List.mem_flatMap, List.mem_filterMap, List.mem_range]
  constructor
  · rintro ⟨i, hi, j, hj, h⟩
    by_cases hij : i = j
    · simp [hij] at h
    · simp only [hij, if_false, Option.some.injEq, Prod.mk.injEq] at h
      obtain ⟨hu, hv⟩ := h
      subst hu; subst hv
      have : (i : Int) ≠ (j : Int) := by exact_mod_cast hij
      refine ⟨this, ?_, ?_, ?_, ?_⟩ <;> omega
  · rintro ⟨hne, hu0, hun, hv0, hvn⟩
    refine ⟨u.toNat, by omega, v.toNat, by omega, ?_⟩
    have hij : u.toNat ≠ v.toNat := by omega
    simp only [hij, if_false, Option.some.injEq, Prod.mk.injEq]
    constructor <;> omega

theorem create_fully_connected_graph_ne_nil {n : Nat} (hn : 2 ≤ n) :
    create_fully_connected_graph n ≠ [] := by
  have h01 : ((0 : Int), (1 : Int)) ∈ create_fully_connected_graph n := by
    rw [mem_create_fully_connected_graph]
    refine ⟨by norm_num, by norm_num, by omega, by norm_num, by omega⟩
  exact List.ne_nil_of_mem h01

theorem create_sparse_graph_ok {n : Nat} {t : Int} (hn : 2 ≤ n) :
    create_sparse_graph n t =
      Except.ok ((create_fully_connected_graph n).filter
        fun e => decide (((e.1 - e.2).natAbs : Int) ≤ t)) := by
  have h := create_fully_connected_graph_ne_nil hn
  unfold create_sparse_graph filter_edges_by_seq_distance
  simp [h]

/-! ### Lemmas about the chunk machinery -/

theorem chunksFuel_eq_nil_iff {cs fuel : Nat} {l : List α} :
    chunksFuel cs fuel l = [] ↔ l = [] := by
  cases l <;> cases fuel <;> simp [chunksFuel]

theorem chunksFuel_flatten (cs : Nat) :
    ∀ (fuel : Nat) (l : List α), (chunksFuel cs fuel l).flatten = l
  | 0, [] => by simp [chunksFuel]
  | 0, a :: l => by simp [chunksFuel]
  | fuel + 1, [] => by simp [chunksFuel]
  | fuel + 1, a :: l => by
    simp only [chunksFuel, List.flatten_cons, chunksFuel_flatten cs fuel]
    simp [List.take_append_drop]

theorem chunksFuel_mem_ne_nil {cs : Nat} :
    ∀ {fuel : Nat} {l : List α} {c : List α}, c ∈ chunksFuel cs fuel l → c ≠ []
  | 0, [], c => by simp [chunksFuel]
  | 0, a :: l, c => by
    intro hc
    simp only [chunksFuel, List.mem_singleton] at hc
    subst hc; simp
  | fuel + 1, [], c => by simp [chunksFuel]
  | fuel + 1, a :: l, c => by
    intro hc
    simp only [chunksFuel, List.mem_cons] at hc
    rcases hc with hc | hc
    · subst hc; simp
    · exact chunksFuel_mem_ne_nil hc

theorem chunksFuel_mem_length_le {cs : Nat} (hcs : 1 ≤ cs) :
    ∀ {fuel : Nat} {l : List α}, l.length ≤ fuel →
      ∀ c ∈ chunksFuel cs fuel l, c.length ≤ cs
  | 0, [], _, c => by simp [chunksFuel]
  | 0, a :: l, hlen, c => by simp at hlen
  | fuel + 1, [], _, c => by simp [chunksFuel]
  | fuel + 1, a :: l, hlen, c => by
    intro hc
    simp only [chunksFuel, List.mem_cons] at hc
    rcases hc with hc | hc
    · subst hc
      simp only [List.length_cons, List.length_take]
      omega
    · have hlen' : (l.drop (cs - 1)).length ≤ fuel := by
        simp only [List.length_drop]
        simp only [List.length_cons] at hlen
        omega
      exact chunksFuel_mem_length_le hcs hlen' c hc

theorem chunksFuel_dropLast_length {cs : Nat} (hcs : 1 ≤ cs) :
    ∀ {fuel : Nat} {l : List α}, l.length ≤ fuel →
      ∀ c ∈ (chunksFuel cs fuel l).dropLast, c.length = cs
  | 0, [], _, c => by simp [chunksFuel]
  | 0, a :: l, hlen, c => by simp at hlen
  | fuel + 1, [], _, c => by simp [chunksFuel]
  | fuel + 1, a :: l, hlen, c => by
    intro hc
    simp only [chunksFuel] at hc
    by_cases hrest : chunksFuel cs fuel (l.drop (cs - 1)) = []
    · simp [hrest] at hc
    · rw [List.dropLast_cons_of_ne_nil hrest, List.mem_cons] at hc
      have hdrop : l.drop (cs - 1) ≠ [] := by
        intro hd
        exact hrest (chunksFuel_eq_nil_iff.mpr hd)
      have hlong : cs - 1 < l.length := by
        by_contra hcon
        exact hdrop (List.drop_eq_nil_iff.mpr (by omega))
      rcases hc with hc | hc
      · subst hc
        simp only [List.length_cons, List.length_take]
        omega
      · have hlen' : (l.drop (cs - 1)).length ≤ fuel := by
          simp only [List.length_drop]
          simp only [List.length_cons] at hlen
          omega
        exact chunksFuel_dropLast_length hcs hlen' c hc

/-! ### Claims about the graph topology builders -/

/-- C3 (counterexample): with strategy "sparse" and `threshold = 2 > 1` the
claim promises that an edge index is returned, but at `num_nodes = 1` the
complete graph is the 1-dimensional empty tensor and
`filter_edges_by_seq_distance` fails on it, so no edge index is returned. -/
theorem sparse_threshold_gt_one_can_still_fail :
    (1 : Int) < 2 ∧
      create_edge_index 1 EdgeIndexStrategy.sparse 30 2 =
        Except.error "index 0 is out of bounds for dimension 0 with size 0" :=
  ⟨by norm_num, rfl⟩

theorem create_edge_index_sparse_cases (num_nodes chunk_size : Nat) (threshold : Int)
    (hn : 2 ≤ num_nodes) :
    create_edge_index num_nodes EdgeIndexStrategy.sparse chunk_size threshold =
      if 1 < threshold then
        Except.ok ((create_fully_connected_graph num_nodes).filter
          fun e => decide (((e.1 - e.2).natAbs : Int) ≤ threshold))
      else Except.error sparse_threshold_errmsg := by
  by_cases ht : 1 < threshold
  · rw [if_pos ht]
    unfold create_edge_index
    rw [if_neg (by omega)]
    exact create_sparse_graph_ok hn
  · rw [if_neg ht]
    unfold create_edge_index
    rw [if_pos (by omega)]

theorem create_fully_connected_graph_eq_nil {n : Nat} (hn : n ≤ 1) :
    create_fully_connected_graph n = [] := by
  match n, hn with
  | 0, _ => rfl
  | 1, _ => rfl

/-- C3 (amended): `create_edge_index` with strategy "sparse" fails with the
invalid-configuration `ValueError` exactly when `threshold ≤ 1`, for *every*
`num_nodes` and before any edges are built; for `threshold > 1` it returns
the distance-filtered complete graph when `num_nodes ≥ 2`, and fails with
the empty-tensor `IndexError` when `num_nodes ≤ 1`. -/
theorem create_edge_index_sparse_spec (num_nodes chunk_size : Nat) (threshold : Int) :
    create_edge_index num_nodes EdgeIndexStrategy.sparse chunk_size threshold =
      if threshold ≤ 1 then Except.error sparse_threshold_errmsg
      else if num_nodes ≤ 1 then
        Except.error "index 0 is out of bounds for dimension 0 with size 0"
      else
        Except.ok ((create_fully_connected_graph num_nodes).filter
          fun e => decide (((e.1 - e.2).natAbs : Int) ≤ threshold)) := by
  by_cases ht : threshold ≤ 1
  · rw [if_pos ht]
    unfold create_edge_index
    rw [if_pos ht]
  · rw [if_neg ht]
    by_cases hn : num_nodes ≤ 1
    · rw [if_pos hn]
      unfold create_edge_index
      rw [if_neg ht]
      unfold create_sparse_graph filter_edges_by_seq_distance
      rw [create_fully_connected_graph_eq_nil hn]
      rfl
    · rw [if_neg hn]
      unfold create_edge_index
      rw [if_neg ht]
      exact create_sparse_graph_ok (by omega)

/-- C4 (counterexample): `create_edge_index(num_nodes=5, strategy="sparse",
threshold=1)` does not return the 8 adjacent-position edges; it raises the
invalid-configuration `ValueError`, because `_edge_index_create_method`
rejects `threshold ≤ 1`. -/
theorem create_edge_index_sparse_five_one_errors :
    create_edge_index 5 EdgeIndexStrategy.sparse 30 1 =
        Except.error sparse_threshold_errmsg ∧
      create_edge_index 5 EdgeIndexStrategy.sparse 30 1 ≠
        Except.ok [(0,1),(1,0),(1,2),(2,1),(2,3),(3,2),(3,4),(4,3)] :=
  ⟨rfl, fun h => by rw [show create_edge_index 5 EdgeIndexStrategy.sparse 30 1 =
      Except.error sparse_threshold_errmsg from rfl] at h; exact Except.noConfusion h⟩

/-- C4 (amended): the 8-edge example holds of the underlying builder
`create_sparse_graph(num_nodes=5, threshold=1)`, which skips the threshold
validation of `create_edge_index`: it returns exactly the adjacent-position
directed edges (0,1),(1,0),(1,2),(2,1),(2,3),(3,2),(3,4),(4,3). -/
theorem create_sparse_graph_five_one :
    create_sparse_graph 5 1 =
      Except.ok [(0,1),(1,0),(1,2),(2,1),(2,3),(3,2),(3,4),(4,3)] := rfl

/-- C6: `create_edge_index(num_nodes=7, strategy="chunked", chunk_size=3,
threshold=-1)` uses the chunk partition [0,1,2],[3,4,5,6] (the trailing
size-1 chunk [6] is merged into the previous chunk) and returns exactly the
18 edges of the complete directed subgraphs over each chunk's global node
ids. -/
theorem create_edge_index_chunked_seven_three :
    chunk_partition 7 3 = Except.ok [[0,1,2],[3,4,5,6]] ∧
      create_edge_index 7 EdgeIndexStrategy.chunked 3 (-1) =
        Except.ok [(0,1),(0,2),(1,0),(1,2),(2,0),(2,1),
                   (3,4),(3,5),(3,6),(4,3),(4,5),(4,6),
                   (5,3),(5,4),(5,6),(6,3),(6,4),(6,5)] ∧
      ([(0,1),(0,2),(1,0),(1,2),(2,0),(2,1),
        (3,4),(3,5),(3,6),(4,3),(4,5),(4,6),
        (5,3),(5,4),(5,6),(6,3),(6,4),(6,5)] : List (Int × Int)).length = 18 :=
  ⟨rfl, rfl, rfl⟩

/-- C7 (counterexample): with `num_nodes = 3 ≥ 2` and positive
`chunk_size = 1`, the final partition used to build edges is [[0],[1,2]],
which contains the size-1 chunk [0]; the partition is really used: the
chunked builder succeeds and returns only the edges of [1,2]. -/
theorem chunk_partition_size_one_chunk :
    chunk_partition 3 1 = Except.ok [[0],[1,2]] ∧
      ([0] : List Nat) ∈ [[0],[1,2]] ∧ ([0] : List Nat).length = 1 ∧
      create_chunked_graph 3 1 (-1) = Except.ok [(1,2),(2,1)] :=
  ⟨rfl, by simp, rfl, rfl⟩

/-- C7 (amended): for `num_nodes ≥ 2` and `chunk_size ≥ 2` the final chunk
partition used by the chunked strategy contains no chunk of size 1: every
chunk has at least 2 members. -/
theorem chunk_partition_no_singleton (num_nodes chunk_size : Nat)
    (hn : 2 ≤ num_nodes) (hcs : 2 ≤ chunk_size) :
    ∃ part, chunk_partition num_nodes chunk_size = Except.ok part ∧
      ∀ c ∈ part, 2 ≤ c.length := by
  have hcs0 : chunk_size ≠ 0 := by omega
  have hrange : (List.range num_nodes) ≠ [] := by
    intro h
    have := List.length_range num_nodes
    rw [h] at this
    simp at this
    omega
  set chunks := chunksFuel chunk_size (List.range num_nodes).length (List.range num_nodes)
    with hchunks
  have hchunks_eq : more_itertools_chunked chunk_size (List.range num_nodes) = chunks := by
    rw [more_itertools_chunked, if_neg hcs0]
  have hne : chunks ≠ [] := fun h => hrange (chunksFuel_eq_nil_iff.mp h)
  have hlen_le : (List.range num_nodes).length ≤ (List.range num_nodes).length := le_refl _
  have hdropLast : ∀ c ∈ chunks.dropLast, c.length = chunk_size :=
    chunksFuel_dropLast_length (by omega) hlen_le
  have hmem_le : ∀ c ∈ chunks, c.length ≤ chunk_size :=
    chunksFuel_mem_length_le (by omega) hlen_le
  have hmem_ne : ∀ c ∈ chunks, c ≠ [] := fun c hc => chunksFuel_mem_ne_nil hc
  have hlast := List.getLast?_eq_getLast chunks hne
  have hmerge : merge_singleton_chunk chunks =
      if (chunks.getLast hne).length = 1 then
        match chunks.dropLast.getLast? with
        | none => Except.error "list index out of range"
        | some prev => Except.ok (chunks.dropLast.dropLast ++ [prev ++ chunks.getLast hne])
      else Except.ok chunks := by
    unfold merge_singleton_chunk
    rw [hlast]
  unfold chunk_partition
  rw [hchunks_eq, hmerge]
  by_cases hone : (chunks.getLast hne).length = 1
  · rw [if_pos hone]
    have hlen2 : 2 ≤ chunks.length := by
      rcases Nat.lt_or_ge chunks.length 2 with h2 | h2
      · exfalso
        have h1 : chunks.length = 1 := by
          rcases Nat.eq_or_lt_of_le (Nat.one_le_iff_ne_zero.mpr
            (fun h0 => hne (List.length_eq_zero.mp h0))) with h | h
          · omega
          · omega
        obtain ⟨a, ha⟩ := List.length_eq_one.mp h1
        have hflat : chunks.flatten = List.range num_nodes := chunksFuel_flatten _ _ _
        rw [ha] at hflat
        simp at hflat
        have hlast_a : chunks.getLast hne = a := by
          have hla : chunks.getLast? = some a := by rw [ha]; rfl
          exact Option.some.inj (hlast.symm.trans hla)
        rw [hlast_a, hflat] at hone
        rw [List.length_range] at hone
        omega
      · exact h2
    have hdl_ne : chunks.dropLast ≠ [] := by
      intro h
      have := List.length_dropLast chunks
      rw [h] at this
      simp at this
      omega
    rw [List.getLast?_eq_getLast _ hdl_ne]
    refine ⟨_, rfl, ?_⟩
    intro c hc
    rw [List.mem_append] at hc
    rcases hc with hc | hc
    · have : c ∈ chunks.dropLast := (List.dropLast_sublist _).subset hc
      have := hdropLast c this
      omega
    · rw [List.mem_singleton] at hc
      subst hc
      have hprev : chunks.dropLast.getLast hdl_ne ∈ chunks.dropLast :=
        List.getLast_mem hdl_ne
      have := hdropLast _ hprev
      simp only [List.length_append]
      omega
  · rw [if_neg hone]
    refine ⟨_, rfl, ?_⟩
    intro c hc
    rw [← List.dropLast_append_getLast hne, List.mem_append, List.mem_singleton] at hc
    rcases hc with h | h
    · have := hdropLast c h
      omega
    · subst h
      have h1 : 1 ≤ (chunks.getLast hne).length := by
        have hnil := hmem_ne _ (List.getLast_mem hne)
        cases hget : chunks.getLast hne with
        | nil => exact absurd hget hnil
        | cons x xs => simp [hget]
      omega

/-- C7 (witness): the amended theorem applied at `num_nodes = 7`,
`chunk_size = 3`. -/
theorem chunk_partition_no_singleton_witness :
    ∃ part, chunk_partition 7 3 = Except.ok part ∧ ∀ c ∈ part, 2 ≤ c.length :=
  chunk_partition_no_singleton 7 3 (by norm_num) (by norm_num)

/-- C8: for strategy "sparse" with `threshold > 1` and `num_nodes ≥ 2`, the
returned edge index contains an edge (u,v) exactly for the ordered pairs with
u ≠ v, both endpoints in [0, num_nodes), and `|u - v| ≤ threshold`: every
produced edge satisfies the distance bound and no pair of the complete graph
satisfying it is missing. -/
theorem create_edge_index_sparse_membership (num_nodes chunk_size : Nat)
    (threshold : Int) (hn : 2 ≤ num_nodes) (ht : 1 < threshold) :
    ∃ es, create_edge_index num_nodes EdgeIndexStrategy.sparse chunk_size threshold =
        Except.ok es ∧
      ∀ u v : Int, ((u, v) ∈ es ↔
        u ≠ v ∧ 0 ≤ u ∧ u < num_nodes ∧ 0 ≤ v ∧ v < num_nodes ∧
          ((u - v).natAbs : Int) ≤ threshold) := by
  refine ⟨(create_fully_connected_graph num_nodes).filter
      fun e => decide (((e.1 - e.2).natAbs : Int) ≤ threshold), ?_, ?_⟩
  · rw [create_edge_index_sparse_cases num_nodes chunk_size threshold hn, if_pos ht]
  · intro u v
    rw [List.mem_filter, mem_create_fully_connected_graph]
    simp only [decide_eq_true_iff]
    tauto

/-- C8 (witness): the membership characterization applied at `num_nodes = 3`,
`chunk_size = 30`, `threshold = 2`. -/
theorem create_edge_index_sparse_membership_witness :
    ∃ es, create_edge_index 3 EdgeIndexStrategy.sparse 30 2 = Except.ok es ∧
      ∀ u v : Int, ((u, v) ∈ es ↔
        u ≠ v ∧ 0 ≤ u ∧ u < 3 ∧ 0 ≤ v ∧ v < 3 ∧ ((u - v).natAbs : Int) ≤ 2) :=
  create_edge_index_sparse_membership 3 30 2 (by norm_num) (by norm_num)

/-- C10: with `num_nodes = 1` and any positive `chunk_size`, the chunked
strategy does not return an edge index: the partition is the single size-1
chunk [0], and the singleton-merge step accesses the nonexistent
second-to-last chunk, raising the out-of-range `IndexError` before any edges
are built. -/
theorem create_chunked_graph_one_node_fails (chunk_size : Nat) (threshold : Int)
    (hcs : 1 ≤ chunk_size) :
    create_chunked_graph 1 chunk_size threshold =
      Except.error "list index out of range" := by
  have hcs0 : chunk_size ≠ 0 := by omega
  have hchunks : more_itertools_chunked chunk_size (List.range 1) = [[0]] := by
    rw [more_itertools_chunked, if_neg hcs0]
    show chunksFuel chunk_size (List.range 1).length (List.range 1) = [[0]]
    have : List.range 1 = [0] := rfl
    rw [this]
    simp [chunksFuel]
  rw [create_chunked_graph, chunk_partition, hchunks]
  rfl

/-- C10 (witness): the failure applied at `chunk_size = 30`,
`threshold = -1`. -/
theorem create_chunked_graph_one_node_fails_witness :
    create_chunked_graph 1 30 (-1) = Except.error "list index out of range" :=
  create_chunked_graph_one_node_fails 30 (-1) (by norm_num)

/-! ### Lemmas about `sorted_unique` and `np_unique` -/

theorem mem_insert_uniq {v x : Int} : ∀ {l : List Int}, x ∈ insert_uniq v l ↔ x = v ∨ x ∈ l
  | [] => by simp [insert_uniq]
  | w :: rest => by
    simp only [insert_uniq]
    split_ifs with h1 h2
    · simp [List.mem_cons]
    · subst h2
      simp [List.mem_cons]
    · simp only [List.mem_cons, mem_insert_uniq (l := rest)]
      tauto

theorem mem_sorted_unique {x : Int} : ∀ {l : List Int}, x ∈ sorted_unique l ↔ x ∈ l
  | [] => by simp [sorted_unique]
  | v :: rest => by
    simp only [sorted_unique, mem_insert_uniq, mem_sorted_unique (l := rest),
      List.mem_cons]

theorem pairwise_insert_uniq {v : Int} :
    ∀ {l : List Int}, l.Pairwise (· < ·) → (insert_uniq v l).Pairwise (· < ·)
  | [], _ => by simp [insert_uniq]
  | w :: rest, hp => by
    rw [List.pairwise_cons] at hp
    obtain ⟨hw, hrest⟩ := hp
    simp only [insert_uniq]
    split_ifs with h1 h2
    · refine List.Pairwise.cons ?_ (List.Pairwise.cons hw hrest)
      intro y hy
      rcases List.mem_cons.mp hy with rfl | hy
      · exact h1
      · exact lt_trans h1 (hw y hy)
    · exact List.Pairwise.cons hw hrest
    · have hwv : w < v := by omega
      refine List.Pairwise.cons ?_ (pairwise_insert_uniq hrest)
      intro y hy
      rcases mem_insert_uniq.mp hy with rfl | hy
      · exact hwv
      · exact hw y hy

theorem sorted_unique_pairwise : ∀ (l : List Int), (sorted_unique l).Pairwise (· < ·)
  | [] => by simp [sorted_unique]
  | v :: rest => pairwise_insert_uniq (sorted_unique_pairwise rest)

theorem sorted_unique_nodup (l : List Int) : (sorted_unique l).Nodup :=
  (sorted_unique_pairwise l).imp fun h => ne_of_lt h

theorem sorted_unique_ne_nil {l : List Int} (h : l ≠ []) : sorted_unique l ≠ [] := by
  cases l with
  | nil => exact absurd rfl h
  | cons v rest =>
    intro hs
    have : v ∈ sorted_unique (v :: rest) := mem_sorted_unique.mpr (List.mem_cons_self v rest)
    rw [hs] at this
    exact List.not_mem_nil v this

theorem sorted_unique_getD_lt {l : List Int} {i j : Nat}
    (hij : i < j) (hj : j < (sorted_unique l).length) :
    (sorted_unique l).getD i 0 < (sorted_unique l).getD j 0 := by
  have hi : i < (sorted_unique l).length := lt_trans hij hj
  rw [List.getD_eq_getElem _ _ hi, List.getD_eq_getElem _ _ hj]
  exact List.pairwise_iff_getElem.mp (sorted_unique_pairwise l) i j hi hj hij

theorem sorted_unique_toFinset (l : List Int) : (sorted_unique l).toFinset = l.toFinset := by
  ext x
  simp [mem_sorted_unique]

theorem sorted_unique_length (l : List Int) : (sorted_unique l).length = l.toFinset.card := by
  rw [← sorted_unique_toFinset, List.toFinset_card_of_nodup (sorted_unique_nodup l)]

theorem indexOf_sorted_unique_lt {l : List Int} {v : Int} (hv : v ∈ l) :
    (sorted_unique l).indexOf v < (sorted_unique l).length :=
  List.indexOf_lt_length.mpr (mem_sorted_unique.mpr hv)

theorem sorted_unique_getD_indexOf {l : List Int} {v : Int} (hv : v ∈ l) :
    (sorted_unique l).getD ((sorted_unique l).indexOf v) 0 = v := by
  rw [List.getD_eq_getElem _ _ (indexOf_sorted_unique_lt hv)]
  exact List.getElem_indexOf _

theorem sorted_unique_indexOf_getElem {l : List Int} {i : Nat}
    (hi : i < (sorted_unique l).length) :
    (sorted_unique l).indexOf ((sorted_unique l)[i]) = i := by
  have hmem : (sorted_unique l)[i] ∈ sorted_unique l := List.getElem_mem hi
  have hlt := List.indexOf_lt_length.mpr hmem
  have := List.getElem_indexOf (a := (sorted_unique l)[i]) (l := sorted_unique l) hlt
  exact ((sorted_unique_nodup l).getElem_inj_iff).mp this

/-! ### Lemmas about `np_bincount` over the inverse indices -/

theorem le_foldr_max {x : Nat} : ∀ {l : List Nat}, x ∈ l → x ≤ l.foldr max 0
  | a :: l, hx => by
    rcases List.mem_cons.mp hx with rfl | hx
    · simp [List.foldr_cons]
    · have := le_foldr_max hx
      simp [List.foldr_cons]
      omega

theorem foldr_max_le {B : Nat} : ∀ {l : List Nat}, (∀ x ∈ l, x ≤ B) → l.foldr max 0 ≤ B
  | [], _ => Nat.zero_le B
  | a :: l, h => by
    have h1 := h a (List.mem_cons_self a l)
    have h2 := foldr_max_le fun x hx => h x (List.mem_cons_of_mem a hx)
    simp [List.foldr_cons]
    omega

/-- The inverse indices of `np.unique`: each element of `groups` replaced by
its index in the sorted distinct list. -/
theorem mem_inverse_lt {groups : List Int} {x : Nat}
    (hx : x ∈ (np_unique groups).2) : x < (sorted_unique groups).length := by
  unfold np_unique at hx
  simp only [List.mem_map] at hx
  obtain ⟨v, hv, rfl⟩ := hx
  exact indexOf_sorted_unique_lt hv

theorem inverse_length (groups : List Int) :
    (np_unique groups).2.length = groups.length := by
  unfold np_unique
  simp

theorem inverse_ne_nil {groups : List Int} (h : groups ≠ []) :
    (np_unique groups).2 ≠ [] := by
  intro he
  have := inverse_length groups
  rw [he] at this
  simp at this
  exact h (List.length_eq_zero.mp this.symm)

theorem top_index_mem_inverse {groups : List Int} (h : groups ≠ []) :
    (sorted_unique groups).length - 1 ∈ (np_unique groups).2 := by
  have hne := sorted_unique_ne_nil h
  have hlen : 0 < (sorted_unique groups).length := List.length_pos.mpr hne
  have hi : (sorted_unique groups).length - 1 < (sorted_unique groups).length := by omega
  have hmem : (sorted_unique groups)[(sorted_unique groups).length - 1] ∈ groups :=
    mem_sorted_unique.mp (List.getElem_mem hi)
  unfold np_unique
  simp only [List.mem_map]
  exact ⟨_, hmem, sorted_unique_indexOf_getElem hi⟩

theorem inverse_foldr_max {groups : List Int} (h : groups ≠ []) :
    (np_unique groups).2.foldr max 0 = (sorted_unique groups).length - 1 := by
  have hle : (np_unique groups).2.foldr max 0 ≤ (sorted_unique groups).length - 1 :=
    foldr_max_le fun x hx => by
      have := mem_inverse_lt hx
      omega
  have hge := le_foldr_max (top_index_mem_inverse h)
  omega

theorem bincount_inverse_length {groups : List Int} (h : groups ≠ []) :
    (np_bincount (np_unique groups).2).length = (sorted_unique groups).length := by
  have hne := inverse_ne_nil h
  have hlen : 0 < (sorted_unique groups).length :=
    List.length_pos.mpr (sorted_unique_ne_nil h)
  unfold np_bincount
  rw [if_neg (by simpa [List.isEmpty_iff] using hne)]
  rw [List.length_map, List.length_range, inverse_foldr_max h]
  omega

theorem bincount_inverse_getD {groups : List Int} {i : Nat} (h : groups ≠ [])
    (hi : i < (sorted_unique groups).length) :
    (np_bincount (np_unique groups).2).getD i 0 = (np_unique groups).2.count i := by
  have hlen := bincount_inverse_length h
  have hi' : i < (np_bincount (np_unique groups).2).length := by omega
  rw [List.getD_eq_getElem _ _ hi']
  have hne := inverse_ne_nil h
  unfold np_bincount
  simp only [if_neg (by simpa [List.isEmpty_iff] using hne : ¬(np_unique groups).2.isEmpty = true)]
  rw [List.getElem_map, List.getElem_range]

theorem count_inverse_eq {groups : List Int} {i : Nat}
    (hi : i < (sorted_unique groups).length) :
    (np_unique groups).2.count i = groups.count ((sorted_unique groups).getD i 0) := by
  unfold np_unique
  simp only []
  rw [List.count_eq_countP, List.countP_map]
  rw [List.count_eq_countP]
  apply List.countP_congr
  intro v hv
  simp only [Function.comp_apply, beq_iff_eq]
  constructor
  · intro hvi
    rw [← sorted_unique_getD_indexOf hv, hvi]
  · intro hvd
    rw [List.getD_eq_getElem _ _ hi] at hvd
    rw [hvd]
    exact sorted_unique_indexOf_getElem hi

/-! ### Lemmas about the argsort model -/

/-- The order `np_argsort` establishes on indices: ascending key, ties in
ascending index order (stability). -/
def arg_le (key : List Nat) (a b : Nat) : Prop :=
  key.getD a 0 < key.getD b 0 ∨ (key.getD a 0 = key.getD b 0 ∧ a ≤ b)

theorem arg_insert_perm (key : List Nat) (i : Nat) :
    ∀ (l : List Nat), (arg_insert key i l).Perm (i :: l)
  | [] => List.Perm.refl _
  | j :: rest => by
    simp only [arg_insert]
    split_ifs with h1
    · exact List.Perm.refl _
    · exact ((arg_insert_perm key i rest).cons j).trans (List.Perm.swap i j rest)

theorem arg_sort_list_perm (key : List Nat) :
    ∀ (is : List Nat), (arg_sort_list key is).Perm is
  | [] => List.Perm.refl _
  | i :: is =>
    (arg_insert_perm key i (arg_sort_list key is)).trans
      ((arg_sort_list_perm key is).cons i)

theorem np_argsort_perm (key : List Nat) :
    (np_argsort key).Perm (List.range key.length) :=
  arg_sort_list_perm key (List.range key.length)

theorem arg_insert_pairwise {key : List Nat} {i : Nat} :
    ∀ {l : List Nat}, l.Pairwise (arg_le key) → (∀ j ∈ l, i ≤ j) →
      (arg_insert key i l).Pairwise (arg_le key)
  | [], _, _ => List.pairwise_singleton _ i
  | j :: rest, hp, hall => by
    rw [List.pairwise_cons] at hp
    obtain ⟨hj, hrest⟩ := hp
    simp only [arg_insert]
    split_ifs with h1
    · refine List.Pairwise.cons ?_ (List.Pairwise.cons hj hrest)
      intro y hy
      rcases List.mem_cons.mp hy with rfl | hy
      · rcases Nat.lt_or_ge (key.getD i 0) (key.getD y 0) with h | h
        · exact Or.inl h
        · exact Or.inr ⟨by omega, hall y (List.mem_cons_self _ _)⟩
      · rcases hj y hy with h | ⟨heq, hle⟩
        · exact Or.inl (by omega)
        · rcases Nat.lt_or_ge (key.getD i 0) (key.getD y 0) with h | h
          · exact Or.inl h
          · exact Or.inr ⟨by omega, hall y (List.mem_cons_of_mem _ hy)⟩
    · have hji : key.getD j 0 < key.getD i 0 := by omega
      refine List.Pairwise.cons ?_
        (arg_insert_pairwise hrest fun y hy => hall y (List.mem_cons_of_mem _ hy))
      intro y hy
      rcases List.mem_cons.mp ((arg_insert_perm key i rest).mem_iff.mp hy) with rfl | hy2
      · exact Or.inl hji
      · exact hj y hy2

theorem arg_sort_list_pairwise {key : List Nat} :
    ∀ {is : List Nat}, is.Pairwise (· < ·) → (arg_sort_list key is).Pairwise (arg_le key)
  | [], _ => List.Pairwise.nil
  | i :: is, hp => by
    rw [List.pairwise_cons] at hp
    obtain ⟨hi, his⟩ := hp
    refine arg_insert_pairwise (arg_sort_list_pairwise his) ?_
    intro j hj
    have : j ∈ is := (arg_sort_list_perm key is).mem_iff.mp hj
    exact Nat.le_of_lt (hi j this)

theorem np_argsort_pairwise (key : List Nat) :
    (np_argsort key).Pairwise (arg_le key) :=
  arg_sort_list_pairwise (List.pairwise_lt_range key.length)

/-! ### Lemmas about boolean-mask selection -/

theorem mask_select_cons (x : α) (xs : List α) (b : Bool) (mask : List Bool) :
    mask_select (x :: xs) (b :: mask) =
      (if b then [x] else []) ++ mask_select xs mask := by
  cases b <;> simp [mask_select, List.filterMap_cons]

theorem mem_mask_select_range' {i : Nat} :
    ∀ (n s : Nat) (mask : List Bool), mask.length = n →
      (i ∈ mask_select (List.range' s n) mask ↔
        s ≤ i ∧ i < s + n ∧ mask.getD (i - s) false = true)
  | 0, s, mask, h => by
    have hm : mask = [] := List.length_eq_zero.mp h
    subst hm
    simp [mask_select]
  | n + 1, s, mask, h => by
    cases mask with
    | nil => simp at h
    | cons b mask' =>
      have hlen : mask'.length = n := by simpa using h
      rw [List.range'_succ, mask_select_cons]
      constructor
      · intro hmem
        rcases List.mem_append.mp hmem with hm | hm
        · cases b with
          | false => simp at hm
          | true =>
            simp only [if_pos, List.mem_singleton] at hm
            subst hm
            refine ⟨le_refl _, by omega, ?_⟩
            simp
        · obtain ⟨h1, h2, h3⟩ := (mem_mask_select_range' n (s + 1) mask' hlen).mp hm
          refine ⟨by omega, by omega, ?_⟩
          have heq : i - s = (i - (s + 1)) + 1 := by omega
          rw [heq, List.getD_cons_succ]
          exact h3
      · rintro ⟨h1, h2, h3⟩
        rcases Nat.eq_or_lt_of_le h1 with heq | hlt
        · subst heq
          rw [Nat.sub_self, List.getD_cons_zero] at h3
          subst h3
          exact List.mem_append.mpr (Or.inl (by simp))
        · refine List.mem_append.mpr (Or.inr ?_)
          refine (mem_mask_select_range' n (s + 1) mask' hlen).mpr ⟨by omega, by omega, ?_⟩
          have heq : i - s = (i - (s + 1)) + 1 := by omega
          rw [heq, List.getD_cons_succ] at h3
          exact h3

theorem mem_mask_select_range {n : Nat} {mask : List Bool} (h : mask.length = n) {i : Nat} :
    i ∈ mask_select (List.range n) mask ↔ i < n ∧ mask.getD i false = true := by
  rw [List.range_eq_range', mem_mask_select_range' n 0 mask h]
  simp

/-! ### Structure of `split` -/

theorem init_groups_field (groups : List Int) :
    (ImbalancedGroupKFold.init groups).groups = (np_unique groups).2 := rfl

theorem init_X_idx (groups : List Int) :
    (ImbalancedGroupKFold.init groups).X_idx = List.range groups.length := rfl

theorem init_uniq_groups (groups : List Int) :
    (ImbalancedGroupKFold.init groups).uniq_groups =
      ((np_argsort (np_bincount (np_unique groups).2)).reverse).map
        fun i => (sorted_unique groups).getD i 0 := rfl

theorem enumFrom_filterMap_mk_fold (s : ImbalancedGroupKFold) :
    ∀ (t : List Int) (n : Nat),
      (List.enumFrom (n + 1) t).filterMap
        (fun p => if p.1 = 0 then none else some (s.mk_fold p.2)) = t.map s.mk_fold
  | [], _ => rfl
  | g :: t, n => by
    rw [List.enumFrom_cons, List.filterMap_cons]
    simp only [Nat.succ_ne_zero, if_false, List.map_cons]
    rw [enumFrom_filterMap_mk_fold s t (n + 1)]

theorem split_folds_eq (s : ImbalancedGroupKFold) :
    s.split_folds = s.uniq_groups.tail.map s.mk_fold := by
  unfold ImbalancedGroupKFold.split_folds
  cases h : s.uniq_groups with
  | nil => simp [List.enum]
  | cons g t =>
    show (List.enumFrom 0 (g :: t)).filterMap _ = _
    rw [List.enumFrom_cons, List.filterMap_cons]
    simp only [if_pos rfl, List.tail_cons]
    exact enumFrom_filterMap_mk_fold s t 0

theorem split_snd (s : ImbalancedGroupKFold) : (s.split).2 = s.split_folds := by
  unfold ImbalancedGroupKFold.split
  cases h : s.split_folds.getLast? <;> simp [h]

theorem split_fst_split_folds (s : ImbalancedGroupKFold) :
    ((s.split).1).split_folds = s.split_folds := by
  unfold ImbalancedGroupKFold.split
  cases h : s.split_folds.getLast? with
  | none => simp [h]
  | some f =>
    simp only [h]
    rfl

/-! ### Claims about the splitter -/

/-- C9: consuming the `split` generator twice on the same splitter instance
yields the same sequence of (train, val) folds: the generator is recreated by
each call, and the bookkeeping fields it overwrites do not feed back into the
folds. -/
theorem split_twice_same_folds (groups : List Int) (h : groups ≠ []) :
    (((ImbalancedGroupKFold.init groups).split).1.split).2 =
      ((ImbalancedGroupKFold.init groups).split).2 := by
  rw [split_snd, split_snd, split_fst_split_folds]

/-- C9 (witness): restartability at the concrete label array [0,0,1]. -/
theorem split_twice_same_folds_witness :
    (((ImbalancedGroupKFold.init [0,0,1]).split).1.split).2 =
      ((ImbalancedGroupKFold.init [0,0,1]).split).2 :=
  split_twice_same_folds [0,0,1] (by simp)

/-- C2: every fold yielded by `split` has disjoint train and validation
index lists whose union is exactly the index range [0, N). -/
theorem fold_train_val_partition (groups : List Int) (h : groups ≠ []) (f : Fold)
    (hf : f ∈ (ImbalancedGroupKFold.init groups).split_folds) :
    (∀ i : Nat, ¬(i ∈ f.train_idx ∧ i ∈ f.val_idx)) ∧
      (∀ i : Nat, (i ∈ f.train_idx ∨ i ∈ f.val_idx) ↔ i < groups.length) := by
  rw [split_folds_eq] at hf
  obtain ⟨gid, hgid, rfl⟩ := List.mem_map.mp hf
  set s := ImbalancedGroupKFold.init groups with hs
  have hglen : s.groups.length = groups.length := by
    rw [hs, init_groups_field]
    exact inverse_length groups
  have hvlen : (s.groups.map fun g : Nat => ((g : Int) == gid)).length = groups.length := by
    rw [List.length_map]
    exact hglen
  have htlen : ((s.groups.map fun g : Nat => ((g : Int) == gid)).map fun b => !b).length
      = groups.length := by
    rw [List.length_map]
    exact hvlen
  have hXidx : s.X_idx = List.range groups.length := by rw [hs, init_X_idx]
  have hmem_val : ∀ i : Nat, i ∈ (s.mk_fold gid).val_idx ↔
      i < groups.length ∧
        (s.groups.map fun g : Nat => ((g : Int) == gid)).getD i false = true := by
    intro i
    unfold ImbalancedGroupKFold.mk_fold
    simp only []
    rw [hXidx, mem_mask_select_range hvlen]
  have hmem_train : ∀ i : Nat, i ∈ (s.mk_fold gid).train_idx ↔
      i < groups.length ∧
        ((s.groups.map fun g : Nat => ((g : Int) == gid)).map fun b => !b).getD i false = true := by
    intro i
    unfold ImbalancedGroupKFold.mk_fold
    simp only []
    rw [hXidx, mem_mask_select_range htlen]
  have hnot : ∀ i : Nat, i < groups.length →
      (((s.groups.map fun g : Nat => ((g : Int) == gid)).map fun b => !b).getD i false
        = !((s.groups.map fun g : Nat => ((g : Int) == gid)).getD i false)) := by
    intro i hi
    have hi1 : i < (s.groups.map fun g : Nat => ((g : Int) == gid)).length := by omega
    have hi2 : i < ((s.groups.map fun g : Nat => ((g : Int) == gid)).map fun b => !b).length := by
      omega
    rw [List.getD_eq_getElem _ _ hi1, List.getD_eq_getElem _ _ hi2, List.getElem_map]
  constructor
  · intro i ⟨hit, hiv⟩
    obtain ⟨hi, hbt⟩ := (hmem_train i).mp hit
    obtain ⟨_, hbv⟩ := (hmem_val i).mp hiv
    rw [hnot i hi, hbv] at hbt
    simp at hbt
  · intro i
    constructor
    · intro hor
      rcases hor with hit | hiv
      · exact ((hmem_train i).mp hit).1
      · exact ((hmem_val i).mp hiv).1
    · intro hi
      rcases hb : (s.groups.map fun g : Nat => ((g : Int) == gid)).getD i false with _ | _
      · left
        rw [hmem_train i]
        refine ⟨hi, ?_⟩
        rw [hnot i hi, hb]
        rfl
      · right
        exact (hmem_val i).mpr ⟨hi, hb⟩

/-- C2 (witness): the partition property at the concrete label array
[0,0,1], whose single fold is train [0,1] and validation [2]. -/
theorem fold_train_val_partition_witness :
    (∀ i : Nat, ¬(i ∈ (⟨[0,1],[2],1,[0]⟩ : Fold).train_idx ∧
        i ∈ (⟨[0,1],[2],1,[0]⟩ : Fold).val_idx)) ∧
      (∀ i : Nat, (i ∈ (⟨[0,1],[2],1,[0]⟩ : Fold).train_idx ∨
        i ∈ (⟨[0,1],[2],1,[0]⟩ : Fold).val_idx) ↔ i < ([0,0,1] : List Int).length) :=
  fold_train_val_partition [0,0,1] (by simp) ⟨[0,1],[2],1,[0]⟩ (by decide)

/-- C5: for a nonempty group-label array with k distinct groups,
`fold_count` returns k - 1 and `split` yields exactly k - 1 folds (0 folds
when all items share one group, without raising). -/
theorem fold_count_eq_distinct_sub_one (groups : List Int) (h : groups ≠ []) :
    (ImbalancedGroupKFold.init groups).fold_count = (groups.toFinset.card : Int) - 1 ∧
      ((ImbalancedGroupKFold.init groups).split).2.length + 1 = groups.toFinset.card := by
  have hcard : (ImbalancedGroupKFold.init groups).uniq_groups.length
      = groups.toFinset.card := by
    rw [init_uniq_groups, List.length_map, List.length_reverse]
    have h1 := (np_argsort_perm (np_bincount (np_unique groups).2)).length_eq
    rw [List.length_range] at h1
    rw [h1, bincount_inverse_length h, sorted_unique_length]
  have hpos : 0 < groups.toFinset.card := by
    refine Finset.card_pos.mpr ?_
    cases groups with
    | nil => exact absurd rfl h
    | cons g t => exact ⟨g, by simp⟩
  constructor
  · have hn : (ImbalancedGroupKFold.init groups).fold_count
        = ((ImbalancedGroupKFold.init groups).uniq_groups.length : Int) - 1 := rfl
    rw [hn, hcard]
  · rw [split_snd, split_folds_eq, List.length_map, List.length_tail, hcard]
    omega

/-- C5 (witness): at [0,0,0,1,1,2] (3 distinct groups) the fold count is 2
and two folds are yielded; the theorem also covers the single-group edge
case, e.g. [3,3]. -/
theorem fold_count_eq_distinct_sub_one_witness :
    (ImbalancedGroupKFold.init [0,0,0,1,1,2]).fold_count
        = (([0,0,0,1,1,2] : List Int).toFinset.card : Int) - 1 ∧
      ((ImbalancedGroupKFold.init [0,0,0,1,1,2]).split).2.length + 1
        = ([0,0,0,1,1,2] : List Int).toFinset.card :=
  fold_count_eq_distinct_sub_one [0,0,0,1,1,2] (by simp)

/-- C1 (counterexample): on [5,5,7,7] groups 5 and 7 tie at count 2, yet
`unique_groups[0]` is 7, not the smallest tied raw id 5.  On a 2-element
count array numpy's argsort is its insertion sort, which is stable, so the
model's tie order here is the program's: the `[::-1]` reversal puts the
largest tied raw id first. -/
theorem uniq_groups_tie_not_smallest :
    List.count (5 : Int) [5,5,7,7] = List.count (7 : Int) [5,5,7,7] ∧
      (5 : Int) < 7 ∧
      (ImbalancedGroupKFold.init [5,5,7,7]).uniq_groups.head? = some 7 ∧
      (ImbalancedGroupKFold.init [5,5,7,7]).uniq_groups.head? ≠ some 5 := by
  refine ⟨by decide, by decide, by decide, by decide⟩

/-- C1 (amended): for every nonempty group-label array, `unique_groups[0]`
is a group of maximal member count and never appears as the validation group
of any fold yielded by `split`.  The tie order among equally frequent groups
is not asserted: it follows the unspecified equal-key order of `np.argsort`
(and, where that sort is stable, lands on the largest tied raw id — see the
counterexample).  The proof uses only that the argsort sorts the counts,
never its tie order. -/
theorem uniq_groups_head_is_majority (groups : List Int) (h : groups ≠ []) :
    ∃ g0, (ImbalancedGroupKFold.init groups).uniq_groups.head? = some g0 ∧
      g0 ∈ groups ∧
      (∀ g ∈ groups, groups.count g ≤ groups.count g0) ∧
      (∀ f ∈ (ImbalancedGroupKFold.init groups).split_folds, f.val_group_id ≠ g0) := by
  have hklen : (np_bincount (np_unique groups).2).length = (sorted_unique groups).length :=
    bincount_inverse_length h
  have hune : sorted_unique groups ≠ [] := sorted_unique_ne_nil h
  have hupos : 0 < (sorted_unique groups).length := List.length_pos.mpr hune
  have hperm : ((np_argsort (np_bincount (np_unique groups).2)).reverse).Perm
      (List.range (np_bincount (np_unique groups).2).length) :=
    (List.reverse_perm _).trans (np_argsort_perm _)
  have hpw : ((np_argsort (np_bincount (np_unique groups).2)).reverse).Pairwise
      (fun a b => arg_le (np_bincount (np_unique groups).2) b a) :=
    List.pairwise_reverse.mpr (np_argsort_pairwise _)
  have hrevlen : ((np_argsort (np_bincount (np_unique groups).2)).reverse).length
      = (np_bincount (np_unique groups).2).length := by
    rw [hperm.length_eq, List.length_range]
  have hrevne : (np_argsort (np_bincount (np_unique groups).2)).reverse ≠ [] := by
    intro hr
    rw [hr] at hrevlen
    simp at hrevlen
    omega
  obtain ⟨m, rest, hcons⟩ :
      ∃ m rest, (np_argsort (np_bincount (np_unique groups).2)).reverse = m :: rest := by
    cases hc : (np_argsort (np_bincount (np_unique groups).2)).reverse with
    | nil => exact absurd hc hrevne
    | cons m rest => exact ⟨m, rest, rfl⟩
  have hmem_rev : ∀ j : Nat,
      (j ∈ (np_argsort (np_bincount (np_unique groups).2)).reverse ↔
        j < (np_bincount (np_unique groups).2).length) := by
    intro j
    rw [hperm.mem_iff, List.mem_range]
  have hm_lt : m < (sorted_unique groups).length := by
    have : m ∈ (np_argsort (np_bincount (np_unique groups).2)).reverse := by
      rw [hcons]
      exact List.mem_cons_self _ _
    have := (hmem_rev m).mp this
    omega
  have hRm : ∀ j : Nat, j < (np_bincount (np_unique groups).2).length →
      arg_le (np_bincount (np_unique groups).2) j m := by
    intro j hj
    have hjmem := (hmem_rev j).mpr hj
    rw [hcons] at hjmem hpw
    rw [List.pairwise_cons] at hpw
    rcases List.mem_cons.mp hjmem with rfl | hjrest
    · exact Or.inr ⟨rfl, le_refl j⟩
    · exact hpw.1 j hjrest
  have hkey_count : ∀ j : Nat, j < (sorted_unique groups).length →
      (np_bincount (np_unique groups).2).getD j 0
        = groups.count ((sorted_unique groups).getD j 0) := by
    intro j hj
    rw [bincount_inverse_getD h hj, count_inverse_eq hj]
  refine ⟨(sorted_unique groups).getD m 0, ?_, ?_, ?_, ?_⟩
  · rw [init_uniq_groups, hcons]
    rfl
  · have hmem : (sorted_unique groups).getD m 0 ∈ sorted_unique groups := by
      rw [List.getD_eq_getElem _ _ hm_lt]
      exact List.getElem_mem hm_lt
    exact mem_sorted_unique.mp hmem
  · intro g hg
    have hjlt := indexOf_sorted_unique_lt hg
    have hRj := hRm ((sorted_unique groups).indexOf g) (by omega)
    have hgj := sorted_unique_getD_indexOf hg
    have h1 : (np_bincount (np_unique groups).2).getD ((sorted_unique groups).indexOf g) 0
        = groups.count g := by
      rw [hkey_count _ hjlt, hgj]
    have h2 := hkey_count m hm_lt
    rcases hRj with hlt | ⟨heq, _⟩
    · omega
    · omega
  · intro f hf
    rw [split_folds_eq, init_uniq_groups, hcons] at hf
    simp only [List.map_cons, List.tail_cons] at hf
    obtain ⟨gid, hgid, rfl⟩ := List.mem_map.mp hf
    obtain ⟨j, hj, rfl⟩ := List.mem_map.mp hgid
    have hval : ((ImbalancedGroupKFold.init groups).mk_fold
        ((sorted_unique groups).getD j 0)).val_group_id
          = (sorted_unique groups).getD j 0 := rfl
    rw [hval]
    have hjrev : j ∈ (np_argsort (np_bincount (np_unique groups).2)).reverse := by
      rw [hcons]
      exact List.mem_cons_of_mem _ hj
    have hjlt : j < (sorted_unique groups).length := by
      have := (hmem_rev j).mp hjrev
      omega
    have hnodup : ((np_argsort (np_bincount (np_unique groups).2)).reverse).Nodup :=
      hperm.nodup_iff.mpr (List.nodup_range _)
    have hjm : j ≠ m := by
      intro hjm
      rw [hcons, List.nodup_cons] at hnodup
      exact hnodup.1 (hjm ▸ hj)
    rcases Nat.lt_or_ge j m with hlt | hge
    · have hx : (sorted_unique groups).getD j 0 < (sorted_unique groups).getD m 0 :=
        sorted_unique_getD_lt hlt hm_lt
      omega
    · have hmltj : m < j := by omega
      have hx : (sorted_unique groups).getD m 0 < (sorted_unique groups).getD j 0 :=
        sorted_unique_getD_lt hmltj hjlt
      omega

/-- C1 (witness): the amended majority property at [0,0,0,1,1,2], whose
majority group is 0 (count 3). -/
theorem uniq_groups_head_is_majority_witness :
    ∃ g0, (ImbalancedGroupKFold.init [0,0,0,1,1,2]).uniq_groups.head? = some g0 ∧
      g0 ∈ ([0,0,0,1,1,2] : List Int) ∧
      (∀ g ∈ ([0,0,0,1,1,2] : List Int),
        List.count g [0,0,0,1,1,2] ≤ List.count g0 [0,0,0,1,1,2]) ∧
      (∀ f ∈ (ImbalancedGroupKFold.init [0,0,0,1,1,2]).split_folds,
        f.val_group_id ≠ g0) :=
  uniq_groups_head_is_majority [0,0,0,1,1,2] (by simp)
